import Mathlib

/-!
Verification development for the emdfile persistence / diff-merge engine
(`src/emdfile/write.py` and the leaf node classes).  The on-disk HDF5
container is modelled as a tree of groups and datasets; the runtime tree of
nodes is modelled by `RNode` / `RRoot`.  Every definition is a direct
translation of the corresponding Python function; functions of this
repository that are not under `src/` (Node.to_h5, Root.to_h5, Node.tree,
_is_EMD_file, _get_EMD_rootgroups, Metadata.to_h5, EMD_data_group_types)
are modelled from the spec and marked as such in their doc comments.
-/

namespace Emdfile

/-! ### On-disk model: HDF5 groups, datasets, attributes -/

/-- An HDF5 entry: a group (with string attributes and named children, in
insertion order) or a dataset (payload abstracted to a `Nat`). -/
inductive HEntry where
  | group (attrs : List (String × String)) (children : List (String × HEntry))
  | dataset (payload : Nat)

/-- First-occurrence lookup in an association list keyed by strings. -/
def alookup {α : Type} : List (String × α) → String → Option α
  | [], _ => none
  | (k, v) :: rest, key => if k = key then some v else alookup rest key

/-- Replace the value at the first occurrence of a key (no-op if absent). -/
def aset {α : Type} : List (String × α) → String → α → List (String × α)
  | [], _, _ => []
  | (k, v) :: rest, key, w => if k = key then (k, w) :: rest else (k, v) :: aset rest key w

/-- Remove the first occurrence of a key (no-op if absent). -/
def aerase {α : Type} : List (String × α) → String → List (String × α)
  | [], _ => []
  | (k, v) :: rest, key => if k = key then rest else (k, v) :: aerase rest key

/-- Rename the first occurrence of a key in place (no-op if absent). -/
def arename {α : Type} : List (String × α) → String → String → List (String × α)
  | [], _, _ => []
  | (k, v) :: rest, old, new => if k = old then (new, v) :: rest else (k, v) :: arename rest old new

def HEntry.childrenOf : HEntry → List (String × HEntry)
  | .group _ c => c
  | .dataset _ => []

def HEntry.attrsOf : HEntry → List (String × String)
  | .group a _ => a
  | .dataset _ => []

def HEntry.isGroup : HEntry → Bool
  | .group _ _ => true
  | .dataset _ => false

/-- Replace a group's child list (datasets are returned unchanged). -/
def HEntry.withChildren : HEntry → List (String × HEntry) → HEntry
  | .group a _, cs => .group a cs
  | .dataset p, _ => .dataset p

def HEntry.getChild (g : HEntry) (k : String) : Option HEntry :=
  alookup g.childrenOf k

def HEntry.hasChild (g : HEntry) (k : String) : Bool :=
  (g.getChild k).isSome

def HEntry.addChild (g : HEntry) (k : String) (e : HEntry) : HEntry :=
  g.withChildren (g.childrenOf ++ [(k, e)])

def HEntry.setChild (g : HEntry) (k : String) (e : HEntry) : HEntry :=
  g.withChildren (aset g.childrenOf k e)

def HEntry.delChild (g : HEntry) (k : String) : HEntry :=
  g.withChildren (aerase g.childrenOf k)

/-- Follow a path of child names down the tree. -/
def HEntry.getPath (g : HEntry) : List String → Option HEntry
  | [] => some g
  | k :: rest => match g.getChild k with
    | none => none
    | some c => c.getPath rest

/-! ### String primitives

Python string operations used by the source, implemented over the
character list (the corresponding `String` library functions are
definitionally opaque to the kernel). -/

/-- Python `str.split('/')` over a character list: splits at every slash,
keeping empty fields. -/
def splitSlashChars : List Char → List String
  | [] => [""]
  | ch :: rest =>
    match splitSlashChars rest with
    | [] => [""]
    | s :: ss => if ch = '/' then "" :: s :: ss else String.mk (ch :: s.data) :: ss

/-- Python `str.split('/')`: e.g. `""` gives `[""]`, `"/A/B/"` gives
`["", "A", "B", ""]`. -/
def splitSlash (s : String) : List String :=
  splitSlashChars s.data

/-- Python `emdpath[1:] if emdpath[0] == '/' else emdpath`. -/
def stripLeadingSlash (ep : String) : String :=
  match ep.data with
  | [] => ep
  | c :: rest => if c = '/' then String.mk rest else ep

/-- Python `s[1:]`. -/
def strDrop1 (s : String) : String :=
  match s.data with
  | [] => s
  | _ :: rest => String.mk rest

/-- Python `str.replace` over character lists: non-overlapping leftmost
replacement, scanning resuming after each replacement; fuel is the length
of the scanned list.  An empty pattern is returned unchanged (never the
case at the call sites, which replace group-name prefixes starting with a
slash). -/
def replaceChars : Nat → List Char → List Char → List Char → List Char
  | 0, _, _, _ => []
  | _ + 1, [], _, _ => []
  | fuel + 1, c :: rest, pat, new =>
    if pat ≠ [] ∧ pat.isPrefixOf (c :: rest) then
      new ++ replaceChars fuel ((c :: rest).drop pat.length) pat new
    else c :: replaceChars fuel rest pat new

/-- Python `s.replace(pat, new)`. -/
def strReplace (s pat new : String) : String :=
  String.mk (replaceChars s.data.length s.data pat.data new.data)

/-! ### Path resolver (`_validate_treepath`, write.py lines 757-785) -/

/-- The walk loop of `_validate_treepath`: walks the already-split segment
list, returning the path (relative to the starting group) of the final group
reached together with the exact/one-beyond flag, or `none` for Invalid.
The one-beyond case fires only when the missing name is the last segment;
a segment that exists but is not a group yields Invalid. -/
def validate_go (g : HEntry) : List String → Option (List String × Bool)
  | [] => some ([], true)
  | name :: rest =>
    match g.getChild name with
    | none => if rest = [] then some ([], false) else none
    | some e =>
      match e with
      | .group a c => (validate_go (.group a c) rest).map (fun pb => (name :: pb.1, pb.2))
      | .dataset _ => none

/-- `_validate_treepath(rootgroup, treepath)`: splits on `/`, removes (at
most) the first empty segment — Python's `list.remove('')` inside a
`try/except` — and walks.  Returns `none` for Invalid, `some (p, true)` for
Exact and `some (p, false)` for one-beyond, where `p` is the relative path
of the returned group under `rootgroup`. -/
def validate_treepath (rootgroup : HEntry) (treepath : String) : Option (List String × Bool) :=
  validate_go rootgroup ((splitSlash treepath).erase "")

/-- Claim-side resolver, following the wording of spec section 4.2: walk
only structural groups; Exact when every segment exists as a group,
OneBeyond when all segments but the last exist and the last is missing,
Invalid otherwise. -/
def walkExact (g : HEntry) : List String → Option (List String × HEntry)
  | [] => some ([], g)
  | name :: rest =>
    match g.getChild name with
    | some (.group a c) => (walkExact (.group a c) rest).map (fun ph => (name :: ph.1, ph.2))
    | _ => none

/-- Claim-side three-way outcome on a segment list (spec section 4.2). -/
def resolveSpec (g : HEntry) (segs : List String) : Option (List String × Bool) :=
  match walkExact g segs with
  | some (p, _) => some (p, true)
  | none =>
    match segs.getLast? with
    | none => none
    | some last =>
      match walkExact g segs.dropLast with
      | some (p, e) => if e.hasChild last then none else some (p, false)
      | none => none

/-! ### Runtime model: nodes and roots -/

/-- A runtime data node: a name, the node-kind marker its class declares
(`_emd_group_type`, e.g. `"array"` for `Array`), its own payload
(abstracting the node's data, e.g. the `Array` data written by
`Array.to_h5`), and its ordered children (`node._branch`). -/
inductive RNode where
  | node (name : String) (tag : String) (payload : Nat) (children : List RNode)

def RNode.name : RNode → String
  | .node n _ _ _ => n

def RNode.tag : RNode → String
  | .node _ t _ _ => t

def RNode.payload : RNode → Nat
  | .node _ _ p _ => p

def RNode.children : RNode → List RNode
  | .node _ _ _ c => c

/-- A runtime `Root`: a name, the file-level metadata bundles
(`root._metadata`, bundle name to bundle content) and the child nodes. -/
structure RRoot where
  name : String
  metadata : List (String × Nat)
  children : List RNode

/-- Possible errors, mirroring the Python exception raised at each site of
`write.py`.  `assertionError`-backed sites and `Exception(...)` sites get
one constructor per raise site so claims can distinguish them. -/
inductive BErr where
  | notEmd          -- AssertionError, line 275: not an EMD file
  | conflict        -- ValueError from h5py: creating a name that exists
  | keyErr          -- KeyError, line 738: attrs["emd_group_keys"] missing
  | emdpathExc      -- Exception, lines 322/324/487/489: emdpath not found
  | rootTreeExc     -- Exception, line 333: Root data with tree=False
  | addExc          -- Exception, line 406: data treepath not in the H5 tree
  | srcExc          -- Exception, line 541: source node not matched
  | relExc         -- Exception, line 562: data one-beyond but not at target
  | mismatchExc     -- Exception, lines 517/601: runtime tree lookup failed
  | downstreamExc   -- Exception, line 617: target not downstream of source
  | nameAssert      -- AssertionError, line 799: data/group names differ
  | pathAssert      -- AssertionError, line 800: data/group paths differ
  | rootnameAssert  -- AssertionError, line 308: emdpath root not in file
  | containsAssert  -- AssertionError, line 509: target not under rootgroup
  | indexErr        -- IndexError: emdpath is the empty string
  | unreachable     -- model-internal: a path lookup the source guarantees
deriving DecidableEq, Repr

/-- Top-level errors of `write` itself; body errors are wrapped. -/
inductive Err where
  | modeAssert      -- AssertionError, line 146: unrecognized mode
  | existsAssert    -- AssertionError, line 152: write mode, file exists
  | body (e : BErr)
deriving DecidableEq, Repr

/-! ### Serialization (`_write_single_node`, Array.to_h5, Node.to_h5) -/

/-- Modelled from the spec: `Node.to_h5` (tree module, not under src/)
creates one child group named `self.name` tagged with the node's declared
kind; `Array.to_h5` (src/emdfile/classes/array.py) then populates it with
the `"data"` dataset holding the node's payload. -/
def freshGroup (n : RNode) : HEntry :=
  .group [("emd_group_type", n.tag)] [("data", .dataset n.payload)]

/-- `_write_single_node(group, data)` when the created group is not written
into further: h5py raises if the name already exists. -/
def write_single_node (g : HEntry) (n : RNode) : HEntry × Option BErr :=
  if g.hasChild n.name then (g, some .conflict)
  else (g.addChild n.name (freshGroup n), none)

mutual

/-- `_write_tree(group, data)` (write.py lines 705-719): writes every child
of `data` under `group`, each child's own subtree nested under the child's
new group.  Takes the child list (`data._branch`). -/
def write_tree (g : HEntry) : List RNode → HEntry × Option BErr
  | [] => (g, none)
  | c :: rest =>
    if g.hasChild c.name then (g, some .conflict)
    else
      let gce := write_sub c
      let g1 := g.addChild c.name gce.1
      match gce.2 with
      | some e => (g1, some e)
      | none => write_tree g1 rest

/-- One iteration of `_write_tree`: the child's fresh group filled with its
own subtree. -/
def write_sub : RNode → HEntry × Option BErr
  | .node nm t p cs => write_tree (freshGroup (.node nm t p cs)) cs

end

/-- `_write_single_node` followed by `_write_tree` into the newly created
group — the pattern of write.py lines 350-358 / 441-448 / 682-689. -/
def write_node_and_tree (g : HEntry) (n : RNode) : HEntry × Option BErr :=
  if g.hasChild n.name then (g, some .conflict)
  else
    let gce := write_tree (freshGroup n) n.children
    (g.addChild n.name gce.1, gce.2)

/-! ### Overwrite (`_overwrite_single_node`, write.py lines 788-826) -/

/-- Modelled from the spec: `EMD_data_group_types`
(src/emdfile/classes/utils.py, not under src/) — the set of recognized
data-node kind markers. -/
def EMD_data_group_types : List String :=
  ["node", "array", "pointlist", "pointlistarray", "metadata", "custom"]

/-- The link-copy loop of `_overwrite_single_node` (lines 817-820): link
each tagged data child of the old group into the new group; h5py raises if
the name already exists in the new group. -/
def copyLinks (ng : HEntry) : List (String × HEntry) → HEntry × Option BErr
  | [] => (ng, none)
  | (k, e) :: rest =>
    if ng.hasChild k then (ng, some .conflict)
    else copyLinks (ng.addChild k e) rest

/-- The tagged-data-child filter of lines 817-818. -/
def taggedDataChildren (g : HEntry) : List (String × HEntry) :=
  g.childrenOf.filter
    (fun p => match alookup p.2.attrsOf "emd_group_type" with
      | some v => v ∈ EMD_data_group_types
      | none => false)

/-- `_overwrite_single_node(group, data)` where `group` is the child named
`key` of `parent` and `parentRel` is the parent's path relative to the
rootgroup (the source rebuilds these names from `group.name`).  Renames the
old group to `"_tmp_" ++ key`, writes the node's new payload fresh, links
every tagged data child of the renamed group into the fresh group, then
deletes the renamed group.  The two leading asserts of lines 799-800
compare the data's name and treepath with the group's. -/
def overwrite_child (parent : HEntry) (parentRel : List String) (key : String)
    (n : RNode) (tp : String) : HEntry × Option BErr :=
  let groupname := "/" ++ "/".intercalate (parentRel ++ [key])
  if n.name ≠ key then (parent, some .nameAssert)
  else if groupname ≠ tp then (parent, some .pathAssert)
  else
    match parent.getChild key with
    | none => (parent, some .unreachable)
    | some old =>
      let tmp := "_tmp_" ++ key
      if parent.hasChild tmp then (parent, some .conflict)
      else
        let cs1 := arename parent.childrenOf key tmp
        if (alookup cs1 n.name).isSome then (parent.withChildren cs1, some .conflict)
        else
          let nge := copyLinks (freshGroup n) (taggedDataChildren old)
          let cs2 := cs1 ++ [(n.name, nge.1)]
          match nge.2 with
          | some e => (parent.withChildren cs2, some e)
          | none => (parent.withChildren (aerase cs2 tmp), none)

/-! ### Root metadata reconciliation (`_append_root_metadata`, lines 722-754) -/

/-- Modelled from the spec: `Metadata.to_h5` (metadata module, not under
src/) creates one tagged metadata-kind child group named after the bundle,
holding the bundle's content. -/
def mdGroup (payload : Nat) : HEntry :=
  .group [("emd_group_type", "metadata")] [("data", .dataset payload)]

/-- The scan of lines 736-739: for each child of the metadata bundle group,
if its attributes contain `"emd_group_type"`, the code reads
`attrs["emd_group_keys"]` — a `KeyError` when that attribute is absent —
and collects the child's name when the value equals `"metadata"`. -/
def mdScan : List (String × HEntry) → List String × Option BErr
  | [] => ([], none)
  | (k, e) :: rest =>
    if (alookup e.attrsOf "emd_group_type").isSome then
      match alookup e.attrsOf "emd_group_keys" with
      | none => ([], some .keyErr)
      | some v =>
        let r := mdScan rest
        (if v = "metadata" then k :: r.1 else r.1, r.2)
    else mdScan rest

/-- The bundle write loop of lines 741-753: bundles already recorded in
`mdgs` are deleted and rewritten under appendover and skipped under append;
bundles absent from `mdgs` are written fresh. -/
def mdWriteLoop (b : HEntry) (mdgs : List String) (ao : Bool) :
    List (String × Nat) → HEntry × Option BErr
  | [] => (b, none)
  | (key, v) :: rest =>
    if key ∈ mdgs then
      if ao then
        let b1 := b.delChild key
        if b1.hasChild key then (b1, some .conflict)
        else mdWriteLoop (b1.addChild key (mdGroup v)) mdgs ao rest
      else mdWriteLoop b mdgs ao rest
    else
      if b.hasChild key then (b, some .conflict)
      else mdWriteLoop (b.addChild key (mdGroup v)) mdgs ao rest

/-- `_append_root_metadata(rootgroup, root, appendover)`. -/
def append_root_metadata (rg : HEntry) (root : RRoot) (ao : Bool) : HEntry × Option BErr :=
  if root.metadata.length = 0 then (rg, none)
  else
    match rg.getChild "metadatabundle" with
    | none =>
      let be := mdWriteLoop (.group [] []) [] ao root.metadata
      (rg.addChild "metadatabundle" be.1, be.2)
    | some b =>
      let scan := mdScan b.childrenOf
      match scan.2 with
      | some e => (rg, some e)
      | none =>
        let be := mdWriteLoop b scan.1 ao root.metadata
        (rg.setChild "metadatabundle" be.1, be.2)

/-! ### Branch reconciliation (`_append_branch`, lines 829-861) -/

/-- The names of the children of `g` carrying an `"emd_group_type"`
attribute (`groupkeys`, line 834). -/
def taggedKeys (g : HEntry) : List String :=
  (g.childrenOf.filter
    (fun p => (alookup p.2.attrsOf "emd_group_type").isSome)).map Prod.fst

/-- The treepath of a child node: parent treepath, slash, child name. -/
def childTp (tp : String) (d : RNode) : String :=
  tp ++ "/" ++ d.name

mutual

/-- The loop of `_append_branch`: `gk` is `groupkeys`, computed once from
the group before the loop; `relp` is the group's path relative to the
rootgroup and `tp` the corresponding runtime node's treepath (used by the
overwrite asserts). -/
def appendLoop (g : HEntry) (relp : List String) (tp : String) (gk : List String)
    (ao : Bool) : List RNode → HEntry × Option BErr
  | [] => (g, none)
  | d :: rest =>
    let r := appendChild g relp tp gk ao d
    match r.2 with
    | some e => (r.1, some e)
    | none => appendLoop r.1 relp tp gk ao rest

/-- One iteration of `_append_branch` for the child `d`.  A child absent
from `gk` is written with `_write_single_node(group, d)` followed by
`_write_tree(group, d)` — both into `group` itself, so the fresh child's
subtree lands beside the child, not under it.  A child present in `gk` is
overwritten (appendover) or kept, then recursed into. -/
def appendChild (g : HEntry) (relp : List String) (tp : String) (gk : List String)
    (ao : Bool) : RNode → HEntry × Option BErr
  | .node nm t p cs =>
    let d : RNode := .node nm t p cs
    if d.name ∉ gk then
      let ge := write_single_node g d
      match ge.2 with
      | some e => (ge.1, some e)
      | none => write_tree ge.1 cs
    else
      if ao then
        let ge := overwrite_child g relp d.name d (childTp tp d)
        match ge.2 with
        | some e => (ge.1, some e)
        | none =>
          match ge.1.getChild d.name with
          | none => (ge.1, some .unreachable)
          | some next =>
            let ne := appendLoop next (relp ++ [d.name]) (childTp tp d)
              (taggedKeys next) ao cs
            (ge.1.setChild d.name ne.1, ne.2)
      else
        match g.getChild d.name with
        | none => (g, some .unreachable)
        | some next =>
          let ne := appendLoop next (relp ++ [d.name]) (childTp tp d)
            (taggedKeys next) ao cs
          (g.setChild d.name ne.1, ne.2)

end

/-- `_append_branch(group, data, appendover)`: computes `groupkeys` from
the group once, then runs the loop over `data._branch`. -/
def append_branch (g : HEntry) (relp : List String) (tp : String)
    (cs : List RNode) (ao : Bool) : HEntry × Option BErr :=
  appendLoop g relp tp (taggedKeys g) ao cs

/-! ### Targeted modification helpers -/

/-- Apply a fallible update to the entry at a relative path; the source
reaches such entries through live h5py group objects, whose mutations are
visible through the file. -/
def modifyAt (g : HEntry) (p : List String) (f : HEntry → HEntry × Option BErr) :
    HEntry × Option BErr :=
  match p with
  | [] => f g
  | k :: rest =>
    match g.getChild k with
    | none => (g, some .unreachable)
    | some c =>
      let ce := modifyAt c rest f
      (g.setChild k ce.1, ce.2)

/-- `_overwrite_single_node` invoked on the group at path `p` under the
rootgroup named `rootname`.  For `p = []` the group is the rootgroup
itself: the source would compare `data.name` against the root group's name
and the reconstructed path `"/"` against the data's treepath; those asserts
fail for every input that can reach this case (an Exact resolution with
path `[]` forces an empty treepath). -/
def overwriteAt (rg : HEntry) (rootname : String) (p : List String)
    (n : RNode) (tp : String) : HEntry × Option BErr :=
  match p with
  | [] =>
    if n.name ≠ rootname then (rg, some .nameAssert)
    else if "/" ≠ tp then (rg, some .pathAssert)
    else (rg, some .unreachable)
  | a :: as_ =>
    let q := (a :: as_).dropLast
    let key := (a :: as_).getLast (List.cons_ne_nil a as_)
    modifyAt rg q (fun pg => overwrite_child pg q key n tp)

/-! ### Runtime tree navigation (`Node.tree`) -/

/-- Modelled from the spec: `Node.tree(path)` (tree module, not under
src/) walks the runtime tree from a node along a '/'-delimited relative
path, child by child by name, raising `AssertionError` when a name along
the path has no matching child; an empty path returns the node itself.
Returns the reached node together with its treepath. -/
def rtreeGo (n : RNode) (tp : String) : List String → Option (RNode × String)
  | [] => some (n, tp)
  | k :: rest =>
    match n.children.find? (fun c => c.name == k) with
    | none => none
    | some c => rtreeGo c (tp ++ "/" ++ k) rest

/-- `Node.tree` called on a non-root node with treepath `tp`. -/
def nodeTree (n : RNode) (tp : String) (path : String) : Option (RNode × String) :=
  rtreeGo n tp ((splitSlash path).filter (fun s => s ≠ ""))

/-- Result of `Node.tree` called on a `Root`. -/
inductive RTRes where
  | isRoot
  | isNode (n : RNode) (tp : String)

/-- `Root.tree(path)`: the root's own treepath is empty (the root-relative
path of the root, derived by walking parent links, is empty). -/
def rootTree (r : RRoot) (path : String) : Option RTRes :=
  match (splitSlash path).filter (fun s => s ≠ "") with
  | [] => some .isRoot
  | k :: rest =>
    match r.children.find? (fun c => c.name == k) with
    | none => none
    | some c => (rtreeGo c ("/" ++ k) rest).map (fun p => .isNode p.1 p.2)

/-! ### The file model and fresh-tree writes -/

/-- The EMD file: the header flag models the format stamp written by
`_write_header` and checked by `_is_EMD_file` (read module, not under src/,
modelled from the spec); `tops` are the file's top-level entries. -/
structure HFile where
  isEMD : Bool
  tops : List (String × HEntry)

/-- The `tree` argument: `True`, `False` or `None`. -/
inductive TreeFlag where
  | t | f | n
deriving DecidableEq, Repr

/-- The `data` argument once reduced to a Node: the root itself, a rooted
node (with its runtime root and its `_treepath`), or a rootless node
(`data._root is None`). -/
inductive WData where
  | root (r : RRoot)
  | node (r : RRoot) (tp : String) (n : RNode)
  | rootless (n : RNode)

def writemode : List String := ["w", "write"]

def overwritemode : List String := ["o", "overwrite"]

def appendmode : List String := ["a", "+", "append"]

def appendovermode : List String := ["oa", "ao", "o+", "+o", "appendover"]

def allmodes : List String := writemode ++ overwritemode ++ appendmode ++ appendovermode

/-- Modelled from the spec: `_get_EMD_rootgroups` (read module, not under
src/) lists the names of top-level groups tagged as root-kind groups. -/
def rootGroupNames (f : HFile) : List String :=
  (f.tops.filter (fun p => alookup p.2.attrsOf "emd_group_type" == some "root")).map Prod.fst

/-- Modelled from the spec: `Root.to_h5` creates the top-level group for
the root (tagged `'root'`, also re-stamped by `_write_from_root` line 664)
and stores the root's file-level metadata bundles inside a
`metadatabundle` child group, one tagged metadata-kind group per bundle. -/
def rootFreshGroup (r : RRoot) : HEntry :=
  .group [("emd_group_type", "root")]
    (if r.metadata.isEmpty then []
     else [("metadatabundle",
            .group [] (r.metadata.map (fun kv => (kv.1, mdGroup kv.2))))])

/-- `_write_from_root(file, root, data, tree)` (lines 650-694): writes the
root group then the node/subtree per the `tree` flag.  `dnode = none` means
`data is root`. -/
def write_from_root (tops : List (String × HEntry)) (r : RRoot)
    (dnode : Option (RNode × String)) (tree : TreeFlag) :
    List (String × HEntry) × Option BErr :=
  if (alookup tops r.name).isSome then (tops, some .conflict)
  else
    let rg := rootFreshGroup r
    let rge : HEntry × Option BErr :=
      match dnode, tree with
      | none, .f => (rg, none)
      | none, _ => write_tree rg r.children
      | some nt, .f => write_single_node rg nt.1
      | some nt, .t => write_node_and_tree rg nt.1
      | some nt, .n => write_tree rg nt.1.children
    (tops ++ [(r.name, rge.1)], rge.2)

/-! ### Appending a new root with an explicit emdpath (lines 296-365) -/

/-- Lines 296-365: the runtime root is not yet in the file and an explicit
`emdpath` was given.  Parses the emdpath into a top-level root name plus a
treepath, requires an Exact resolution, then writes the node/subtree at the
target. -/
def branchB (f : HFile) (r : RRoot) (dnode : Option (RNode × String))
    (tree : TreeFlag) (ep : String) : Option HFile × Option BErr :=
  if ep = "" then (some f, some .indexErr)
  else
    let ep1 := stripLeadingSlash ep
    let l := splitSlash ep1
    let rootname := l.headD ""
    let treepath := "/".intercalate l.tail
    match alookup f.tops rootname with
    | none => (some f, some .rootnameAssert)
    | some rg =>
      match validate_treepath rg treepath with
      | none => (some f, some .emdpathExc)
      | some (_, false) => (some f, some .emdpathExc)
      | some (p, true) =>
        let put := fun (pr : HEntry × Option BErr) =>
          ((some ⟨f.isEMD, aset f.tops rootname pr.1⟩ : Option HFile), pr.2)
        match dnode, tree with
        | none, .f => (some f, some .rootTreeExc)
        | none, _ => put (modifyAt rg p (fun tg => write_tree tg r.children))
        | some nt, .f => put (modifyAt rg p (fun tg => write_single_node tg nt.1))
        | some nt, .t => put (modifyAt rg p (fun tg => write_node_and_tree tg nt.1))
        | some nt, .n => put (modifyAt rg p (fun tg => write_tree tg nt.1.children))

/-! ### Diffmerge A (lines 369-459) -/

/-- Diffmerge A: the runtime root already exists in the file and no
explicit emdpath was given. -/
def diffmergeA (f : HFile) (r : RRoot) (dnode : Option (RNode × String))
    (tree : TreeFlag) (ao : Bool) : Option HFile × Option BErr :=
  match alookup f.tops r.name with
  | none => (some f, some .unreachable)
  | some rg =>
    let put := fun (pr : HEntry × Option BErr) =>
      ((some ⟨f.isEMD, aset f.tops r.name pr.1⟩ : Option HFile), pr.2)
    let me := append_root_metadata rg r ao
    match me.2 with
    | some e => put (me.1, some e)
    | none =>
      let rg1 := me.1
      match dnode with
      | none =>
        if tree = .t then put (append_branch rg1 [] "" r.children ao)
        else put (rg1, none)
      | some (n, tp) =>
        match validate_treepath rg1 tp with
        | none => put (rg1, some .addExc)
        | some (p, true) =>
          match tree with
          | .t =>
            if ao then
              let oe := overwriteAt rg1 r.name p n tp
              match oe.2 with
              | some e => put (oe.1, some e)
              | none => put (modifyAt oe.1 p (fun g => append_branch g p tp n.children ao))
            else put (modifyAt rg1 p (fun g => append_branch g p tp n.children ao))
          | .f =>
            if ao then put (overwriteAt rg1 r.name p n tp)
            else put (rg1, none)
          | .n => put (modifyAt rg1 p (fun g => append_branch g p tp n.children ao))
        | some (p, false) =>
          match tree with
          | .t => put (modifyAt rg1 p (fun g => write_node_and_tree g n))
          | .f => put (modifyAt rg1 p (fun g => write_single_node g n))
          | .n => put (modifyAt rg1 p (fun g => write_tree g n.children))

/-! ### Diffmerge B (lines 463-617) -/

/-- `data` standing in for the root in the overwrite/append pattern of
diffmerge B: its name is the root's name; the synthetic tag and payload are
never reached because the overwrite asserts reject a root's empty
treepath first. -/
def rootAsNode (r : RRoot) : RNode :=
  .node r.name "root" 0 r.children

/-- The shared tail of diffmerge B's write branches (lines 519-529,
567-578, 582-592, 602-613): under appendover with `tree` True or False,
overwrite the node at the target; then, with `tree` True or None, append
the node's branch at the target. -/
def aoTreePat (rg : HEntry) (rootname : String) (p : List String) (n : RNode)
    (tp : String) (tree : TreeFlag) (ao : Bool) : HEntry × Option BErr :=
  if ao ∧ (tree = .t ∨ tree = .f) then
    let oe := overwriteAt rg rootname p n tp
    match oe.2 with
    | some e => (oe.1, some e)
    | none =>
      if tree = .t ∨ tree = .n then
        modifyAt oe.1 p (fun g => append_branch g p tp n.children ao)
      else (oe.1, none)
  else
    if tree = .t ∨ tree = .n then
      modifyAt rg p (fun g => append_branch g p tp n.children ao)
    else (rg, none)

/-- Diffmerge B: the runtime root exists in the file and an explicit
emdpath was given.  The containment tests of lines 509 and 594 pass h5py
absolute names, which h5py resolves from the file root, so they test the
target's existence in the live file. -/
def diffmergeB (f : HFile) (r : RRoot) (dnode : Option (RNode × String))
    (tree : TreeFlag) (ep : String) (ao : Bool) : Option HFile × Option BErr :=
  if ep = "" then (some f, some .indexErr)
  else
    let ep1 := stripLeadingSlash ep
    let l := splitSlash ep1
    let treepath := "/".intercalate l.tail
    match alookup f.tops r.name with
    | none => (some f, some .unreachable)
    | some rg =>
      let put := fun (pr : HEntry × Option BErr) =>
        ((some ⟨f.isEMD, aset f.tops r.name pr.1⟩ : Option HFile), pr.2)
      match validate_treepath rg treepath with
      | none => (some f, some .emdpathExc)
      | some (_, false) => (some f, some .emdpathExc)
      | some (tpp, true) =>
        let me := append_root_metadata rg r ao
        match me.2 with
        | some e => put (me.1, some e)
        | none =>
          let rg1 := me.1
          match dnode with
          | none =>
            if ¬ (rg1.getPath tpp).isSome then put (rg1, some .containsAssert)
            else
              let targetAbs := "/" ++ "/".intercalate (r.name :: tpp)
              let rootAbs := "/" ++ r.name
              let ptt := strDrop1 (strReplace targetAbs rootAbs "")
              match rootTree r ptt with
              | none => put (rg1, some .mismatchExc)
              | some .isRoot => put (aoTreePat rg1 r.name tpp (rootAsNode r) "" tree ao)
              | some (.isNode dn dtp) => put (aoTreePat rg1 r.name tpp dn dtp tree ao)
          | some (n, tp) =>
            match validate_treepath rg1 tp with
            | none => put (rg1, some .srcExc)
            | some (srcp, false) =>
              if srcp = tpp then
                if tree = .t ∨ tree = .n then
                  put (modifyAt rg1 tpp (fun g => append_branch g tpp tp n.children ao))
                else put (modifyAt rg1 tpp (fun g => write_single_node g n))
              else put (rg1, some .relExc)
            | some (srcp, true) =>
              if srcp = tpp then put (aoTreePat rg1 r.name tpp n tp tree ao)
              else
                let srcBase := srcp.getLastD r.name
                let tkeys := match rg1.getPath tpp with
                  | some tg => tg.childrenOf.map Prod.fst
                  | none => []
                if srcBase ∈ tkeys then put (aoTreePat rg1 r.name srcp n tp tree ao)
                else if (rg1.getPath tpp).isSome then
                  let targetAbs := "/" ++ "/".intercalate (r.name :: tpp)
                  let srcAbs := "/" ++ "/".intercalate (r.name :: srcp)
                  let ptt := strDrop1 (strReplace targetAbs srcAbs "")
                  match nodeTree n tp ptt with
                  | none => put (rg1, some .mismatchExc)
                  | some (dn, dtp) => put (aoTreePat rg1 r.name tpp dn dtp tree ao)
                else put (rg1, some .downstreamExc)

/-! ### The top-level write entry point (lines 19-628) -/

/-- Line 140: a non-appendover mode is silently coerced to `'a'` whenever
an `emdpath` is passed, before any validation. -/
def effectiveMode (emdpath : Option String) (mode : String) : String :=
  if emdpath.isSome ∧ mode ∉ appendovermode then "a" else mode

/-- Lines 227-235: rootless data is wrapped in a synthetic Root carrying
the node's name and no metadata; the attached node's treepath becomes
slash-name (modelled from the spec: `Root.add_to_tree`).  Returns the
runtime root, the node reference with its treepath (`none` when the data
is the root itself), and the `added_a_root` flag. -/
def prep : WData → RRoot × Option (RNode × String) × Bool
  | .root r => (r, none, false)
  | .node r tp n => (r, some (n, tp), false)
  | .rootless n => (⟨n.name, [], [n]⟩, some (n, "/" ++ n.name), true)

/-- Whether the input node has a root before the call. -/
def rootedInput : WData → Bool
  | .rootless _ => false
  | _ => true

/-- The body of `write` after mode parsing and validation: the overwrite
file deletion (lines 240-243), the fresh-file branch (lines 248-266), and
the four append branches (lines 271-617). -/
def core (fs : Option HFile) (mode : String) (r : RRoot)
    (dnode : Option (RNode × String)) (tree : TreeFlag)
    (emdpath : Option String) : Option HFile × Option BErr :=
  let fm := if mode ∈ overwritemode then ((none : Option HFile), "w") else (fs, mode)
  let fs1 := fm.1
  let m := fm.2
  if m ∈ writemode ∨ ((m ∈ appendmode ∨ m ∈ appendovermode) ∧ fs1.isNone) then
    let we := write_from_root [] r dnode tree
    (some ⟨true, we.1⟩, we.2)
  else
    match fs1 with
    | none => (none, some .unreachable)
    | some f =>
      if ¬ f.isEMD then (some f, some .notEmd)
      else
        let rgs := rootGroupNames f
        match emdpath with
        | none =>
          if r.name ∈ rgs then diffmergeA f r dnode tree (m ∈ appendovermode)
          else
            let we := write_from_root f.tops r dnode tree
            (some ⟨f.isEMD, we.1⟩, we.2)
        | some ep =>
          if r.name ∈ rgs then diffmergeB f r dnode tree ep (m ∈ appendovermode)
          else branchB f r dnode tree ep

/-- Lines 622-628: on the normal-return path the synthetic root (when one
was added) is detached; a body error propagates before reaching that line,
leaving the node rooted. -/
def writeFinish (added rooted : Bool) :
    Option HFile × Option BErr → Option HFile × Option Err × Bool
  | (fs1, some e) => (fs1, some (.body e), true)
  | (fs1, none) => (fs1, none, if added then false else rooted)

/-- `write(filepath, data, mode, emdpath, tree)`.  The result is the file
at the target path after the call, the raised error (`none` on success),
and whether the input node has a root after the call.  Line 623 clears the
synthetic root only on the normal-return path; the early asserts of lines
146 and 152 fire before the synthetic root is attached. -/
def write (fs : Option HFile) (data : WData) (mode : String)
    (emdpath : Option String) (tree : TreeFlag) :
    Option HFile × Option Err × Bool :=
  if effectiveMode emdpath mode ∉ allmodes then (fs, some .modeAssert, rootedInput data)
  else if effectiveMode emdpath mode ∈ writemode ∧ fs.isSome then
    (fs, some .existsAssert, rootedInput data)
  else
    writeFinish (prep data).2.2 (rootedInput data)
      (core fs (effectiveMode emdpath mode) (prep data).1 (prep data).2.1 tree emdpath)

/-! ### Concrete instances used by the claim checks -/

/-- A rootgroup containing the chain A/B. -/
def gAB : HEntry := .group [] [("A", .group [] [("B", .group [] [])])]

/-- A rootgroup whose metadata bundle already holds one tagged metadata
group, as a previous save of a root with metadata leaves it. -/
def rgMd : HEntry :=
  .group [("emd_group_type", "root")] [("metadatabundle", .group [] [("md1", mdGroup 7)])]

/-- A runtime root carrying one metadata bundle not yet on disk. -/
def rootMd : RRoot := ⟨"root", [("md2", 5)], []⟩

/-- An empty rootgroup. -/
def rgEmpty : HEntry := .group [("emd_group_type", "root")] []

/-- A runtime node A with one child B. -/
def nodeAB : RNode := .node "A" "array" 1 [.node "B" "array" 2 []]

/-- A file whose single root group holds the node A with payload `p`. -/
def fileA (p : Nat) : HFile :=
  ⟨true, [("root", .group [("emd_group_type", "root")]
    [("A", .group [("emd_group_type", "array")] [("data", .dataset p)])])]⟩

/-- The runtime tree root/A with payload `p`, `data` being the node A. -/
def dataA (p : Nat) : WData :=
  .node ⟨"root", [], [.node "A" "array" p []]⟩ "/A" (.node "A" "array" p [])

/-- A file on disk that is not an EMD file. -/
def fileBad : HFile := ⟨false, []⟩

/-- A freestanding node. -/
def nodeX : RNode := .node "X" "array" 0 []

/-- A parent group whose child /root/A has payload 1 and one tagged data
child B. -/
def parentA : HEntry := .group [("emd_group_type", "root")]
  [("A", .group [("emd_group_type", "array")]
    [("data", .dataset 1), ("B", .group [("emd_group_type", "array")] [("data", .dataset 9)])])]

/-- The runtime tree r above A above B. -/
def rootR : RRoot := ⟨"r", [], [.node "A" "array" 0 [.node "B" "array" 1 []]]⟩

/-- A file containing /root/A with payload 1 whose root group also holds a
metadata bundle with one tagged metadata group. -/
def fileAmd : HFile :=
  ⟨true, [("root", .group [("emd_group_type", "root")]
    [("A", .group [("emd_group_type", "array")] [("data", .dataset 1)]),
     ("metadatabundle", .group [] [("md1", mdGroup 7)])])]⟩

/-- The runtime tree root/A with payload 2 whose root carries one metadata
bundle, `data` being the node A. -/
def dataAmd : WData :=
  .node ⟨"root", [("md2", 5)], [.node "A" "array" 2 []]⟩ "/A" (.node "A" "array" 2 [])

/-- The payload stored in the `data` dataset of the node group /root/A of
a file, when present. -/
def rootAPayload (fs : Option HFile) : Option Nat :=
  match fs with
  | none => none
  | some f =>
    match alookup f.tops "root" with
    | none => none
    | some rg =>
      match rg.getChild "A" with
      | none => none
      | some gA =>
        match gA.getChild "data" with
        | some (.dataset p) => some p
        | _ => none

/-! ## Theorems -/

/-! ### Association list and entry lemmas -/

theorem alookup_append {α : Type} (l1 l2 : List (String × α)) (k : String) :
    alookup (l1 ++ l2) k =
      match alookup l1 k with
      | some v => some v
      | none => alookup l2 k := by
  induction l1 with
  | nil => simp [alookup]
  | cons a rest ih =>
    obtain ⟨k1, v1⟩ := a
    by_cases h : k1 = k
    · simp [alookup, h]
    · simp [alookup, h, ih]

theorem alookup_eq_some_mem {α : Type} {l : List (String × α)} {k : String} {v : α}
    (h : alookup l k = some v) : (k, v) ∈ l := by
  induction l with
  | nil => simp [alookup] at h
  | cons a rest ih =>
    obtain ⟨k1, v1⟩ := a
    by_cases hk : k1 = k
    · subst hk
      simp [alookup] at h
      simp [h]
    · simp [alookup, hk] at h
      exact List.mem_cons_of_mem _ (ih h)

theorem alookup_none_of_not_mem {α : Type} {l : List (String × α)} {k : String}
    (h : k ∉ l.map Prod.fst) : alookup l k = none := by
  induction l with
  | nil => rfl
  | cons a rest ih =>
    obtain ⟨k1, v1⟩ := a
    have h1 : k1 ≠ k := by
      intro he
      exact h (by simp [he])
    have h2 : k ∉ rest.map Prod.fst := by
      intro hm
      exact h (by simp [hm])
    simp [alookup, h1, ih h2]

theorem alookup_nodup_of_mem {α : Type} {l : List (String × α)} {k : String} {v : α}
    (hn : (l.map Prod.fst).Nodup) (hm : (k, v) ∈ l) : alookup l k = some v := by
  induction l with
  | nil => simp at hm
  | cons a rest ih =>
    obtain ⟨k1, v1⟩ := a
    rw [List.map_cons, List.nodup_cons] at hn
    rcases List.mem_cons.mp hm with h | h
    · rw [Prod.ext_iff] at h
      obtain ⟨h1, h2⟩ := h
      simp at h1 h2
      subst h1
      subst h2
      simp [alookup]
    · have hk : k1 ≠ k := by
        intro he
        exact hn.1 (he ▸ List.mem_map.mpr ⟨(k, v), h, rfl⟩)
      simp [alookup, hk, ih hn.2 h]

theorem aset_self {α : Type} {l : List (String × α)} {k : String} {v : α}
    (h : alookup l k = some v) : aset l k v = l := by
  induction l with
  | nil => rfl
  | cons a rest ih =>
    obtain ⟨k1, v1⟩ := a
    by_cases hk : k1 = k
    · subst hk
      simp [alookup] at h
      simp [aset, h]
    · simp [alookup, hk] at h
      simp [aset, hk, ih h]

theorem alookup_aset_eq {α : Type} {l : List (String × α)} {k : String} {v w : α}
    (h : alookup l k = some w) : alookup (aset l k v) k = some v := by
  induction l with
  | nil => simp [alookup] at h
  | cons a rest ih =>
    obtain ⟨k1, v1⟩ := a
    by_cases hk : k1 = k
    · simp [aset, alookup, hk]
    · simp [alookup, hk] at h
      simp [aset, alookup, hk, ih h]

theorem alookup_aerase_ne {α : Type} (l : List (String × α)) {k t : String}
    (h : k ≠ t) : alookup (aerase l t) k = alookup l k := by
  induction l with
  | nil => rfl
  | cons a rest ih =>
    obtain ⟨k1, v1⟩ := a
    by_cases ht : k1 = t
    · subst ht
      have hk : k1 ≠ k := fun hc => h (hc ▸ rfl)
      simp [aerase, alookup, hk]
    · by_cases hk : k1 = k
      · simp [aerase, ht, alookup, hk, h]
      · simp [aerase, ht, alookup, hk, ih]

theorem alookup_arename_self {α : Type} {l : List (String × α)} {k tmp : String} {v : α}
    (hn : (l.map Prod.fst).Nodup) (h : alookup l k = some v) (hne : tmp ≠ k) :
    alookup (arename l k tmp) k = none := by
  induction l with
  | nil => simp [alookup] at h
  | cons a rest ih =>
    obtain ⟨k1, v1⟩ := a
    rw [List.map_cons, List.nodup_cons] at hn
    by_cases hk : k1 = k
    · subst hk
      have hmem : k1 ∉ rest.map Prod.fst := hn.1
      simp [arename, alookup, hne, alookup_none_of_not_mem hmem]
    · simp [alookup, hk] at h
      simp [arename, alookup, hk, ih hn.2 h]

theorem withChildren_attrsOf (g : HEntry) (cs : List (String × HEntry)) :
    (g.withChildren cs).attrsOf = g.attrsOf := by
  cases g <;> rfl

theorem withChildren_isGroup (g : HEntry) (cs : List (String × HEntry)) :
    (g.withChildren cs).isGroup = g.isGroup := by
  cases g <;> rfl

theorem withChildren_self (g : HEntry) : g.withChildren g.childrenOf = g := by
  cases g <;> rfl

theorem childrenOf_withChildren {g : HEntry} (h : g.isGroup = true)
    (cs : List (String × HEntry)) : (g.withChildren cs).childrenOf = cs := by
  cases g with
  | group a c => rfl
  | dataset p => simp [HEntry.isGroup] at h

theorem setChild_self {g : HEntry} {k : String} {v : HEntry}
    (h : g.getChild k = some v) : g.setChild k v = g := by
  unfold HEntry.setChild
  rw [aset_self h, withChildren_self]

/-! ### The path resolver implements the three-way specification -/

theorem resolveSpec_cons_group (g : HEntry) (name : String) (rest : List String)
    {a : List (String × String)} {c : List (String × HEntry)}
    (hgc : g.getChild name = some (.group a c)) :
    resolveSpec g (name :: rest) =
      Option.map (fun pb => (name :: pb.1, pb.2)) (resolveSpec (.group a c) rest) := by
  have hwd : ∀ r : List String, walkExact g (name :: r)
      = Option.map (fun ph => (name :: ph.1, ph.2)) (walkExact (.group a c) r) := by
    intro r
    simp only [walkExact, hgc]
  unfold resolveSpec
  rw [hwd rest]
  rcases hw : walkExact (.group a c) rest with _ | ⟨p, h⟩
  · simp only [Option.map_none']
    cases rest with
    | nil => simp [walkExact] at hw
    | cons b rs =>
      simp only [List.getLast?_cons_cons, List.dropLast_cons₂]
      rw [hwd ((b :: rs).dropLast)]
      cases hl : (b :: rs).getLast? with
      | none => cases hw2 : walkExact (.group a c) (b :: rs).dropLast <;> simp
      | some last =>
        rcases hw2 : walkExact (.group a c) (b :: rs).dropLast with _ | ⟨q, eh⟩
        · simp
        · by_cases hh : eh.hasChild last = true <;> simp [hh]
  · simp

theorem validate_go_eq_resolveSpec (segs : List String) :
    ∀ g : HEntry, validate_go g segs = resolveSpec g segs := by
  induction segs with
  | nil => intro g; rfl
  | cons name rest ih =>
    intro g
    rcases hgc : g.getChild name with _ | e
    · cases rest with
      | nil => simp [validate_go, resolveSpec, walkExact, hgc, HEntry.hasChild]
      | cons b rs =>
        simp only [validate_go, resolveSpec, walkExact, hgc]
        cases (name :: b :: rs).getLast? <;> simp [List.dropLast_cons₂, walkExact, hgc]
    · cases e with
      | dataset p =>
        cases rest with
        | nil => simp [validate_go, resolveSpec, walkExact, hgc, HEntry.hasChild]
        | cons b rs =>
          simp only [validate_go, resolveSpec, walkExact, hgc]
          cases (name :: b :: rs).getLast? <;> simp [List.dropLast_cons₂, walkExact, hgc]
      | group a c =>
        have ihc := ih (.group a c)
        simp only [validate_go, hgc, ihc]
        rw [resolveSpec_cons_group g name rest hgc]

/-- C5: for every root group and treepath string the resolver returns
exactly one of the three spec outcomes over the segment list it walks
(the treepath split on slashes, the first empty component removed): Exact
with the final group's path when every segment exists as a structural
group, one-beyond with the last existing group when only the last segment
is missing, Invalid otherwise; the empty treepath is Exact at the root
group itself. -/
theorem c5_resolver_three_way (g : HEntry) (tp : String) :
    validate_treepath g tp = resolveSpec g ((splitSlash tp).erase "") ∧
    validate_treepath g "" = some ([], true) := by
  constructor
  · exact validate_go_eq_resolveSpec _ g
  · rfl

/-- C9 counterexample: against a group holding only the chain A/B, the
treepath "A/B" resolves Exact at A/B but "/A/B/" resolves one-beyond at
A/B and "A///B" resolves Invalid — the resolver does not discard every
empty segment, so slash-variants do not all agree. -/
theorem c9_counterexample :
    validate_treepath gAB "A/B" = some (["A", "B"], true) ∧
    validate_treepath gAB "/A/B/" = some (["A", "B"], false) ∧
    validate_treepath gAB "A///B" = none ∧
    validate_treepath gAB "A//B" = some (["A", "B"], true) := by
  refine ⟨rfl, rfl, rfl, rfl⟩

/-- C9 amended: the resolver splits on '/' and discards at most the first
empty segment before walking, so treepaths whose split lists agree after
removing one empty segment resolve identically — in particular a path with
a single leading slash agrees with the same path without it — while
further empty segments (repeated or trailing slashes) are walked as
ordinary missing names and can change the outcome. -/
theorem c9_amended (g : HEntry) (t1 t2 : String)
    (h : (splitSlash t1).erase "" = (splitSlash t2).erase "") :
    validate_treepath g t1 = validate_treepath g t2 ∧
    validate_treepath g "/A/B" = validate_treepath g "A/B" := by
  constructor
  · unfold validate_treepath
    rw [h]
  · rfl

/-- C9 amended, applied: leading-slash invariance at the concrete group. -/
theorem c9_amended_witness :
    validate_treepath gAB "/A/B" = validate_treepath gAB "A/B" :=
  (c9_amended gAB "/A/B" "A/B" rfl).1

/-! ### C2: branch reconciliation writes fresh subtrees beside the child -/

/-- C2 at a concrete input: reconciling the fresh child A (with grandchild
B) into a persisted group with no tagged children writes A's subtree
beside A rather than under it — the resulting children are the siblings A
and B, and A has no child B. -/
theorem c2_flattening :
    (append_branch rgEmpty [] "" [nodeAB] false).2 = none ∧
    (append_branch rgEmpty [] "" [nodeAB] false).1.getPath ["A", "B"] = none ∧
    ((append_branch rgEmpty [] "" [nodeAB] false).1.getPath ["B"]).isSome = true ∧
    (append_branch rgEmpty [] "" [nodeAB] false).1.childrenOf.map Prod.fst = ["A", "B"] := by
  refine ⟨rfl, rfl, rfl, rfl⟩

/-! ### C3: the metadata reconciliation crashes on tagged bundles -/

/-- C3 at the failing input: with one tagged metadata group already inside
the file's metadata bundle and a new, absent runtime bundle to add, the
reconciliation raises KeyError — reading the never-written
"emd_group_keys" attribute — under append and appendover alike, leaving
the rootgroup unchanged instead of adding the absent bundle. -/
theorem c3_keyerror :
    (append_root_metadata rgMd rootMd false).2 = some BErr.keyErr ∧
    (append_root_metadata rgMd rootMd true).2 = some BErr.keyErr ∧
    (append_root_metadata rgMd rootMd false).1 = rgMd := by
  refine ⟨rfl, rfl, rfl⟩

/-! ### C4: overwrite preserves tagged data children -/

theorem tmp_ne (key : String) : "_tmp_" ++ key ≠ key := by
  intro h
  have hlen := congrArg String.length h
  rw [String.length_append] at hlen
  have h5 : ("_tmp_" : String).length = 5 := rfl
  omega

theorem isGroup_of_getChild {g : HEntry} {k : String} {v : HEntry}
    (h : g.getChild k = some v) : g.isGroup = true := by
  cases g with
  | group a c => rfl
  | dataset p => simp [HEntry.getChild, HEntry.childrenOf, alookup] at h

theorem copy_ok (l : List (String × HEntry)) : ∀ ng : HEntry, ng.isGroup = true →
    (∀ k ∈ l.map Prod.fst, ng.hasChild k = false) → (l.map Prod.fst).Nodup →
    copyLinks ng l = (ng.withChildren (ng.childrenOf ++ l), none) := by
  induction l with
  | nil =>
    intro ng hg _ _
    simp [copyLinks, withChildren_self]
  | cons a rest ih =>
    intro ng hg hdisj hnodup
    obtain ⟨k, e⟩ := a
    rw [List.map_cons, List.nodup_cons] at hnodup
    have hk : ng.hasChild k = false := hdisj k (by simp)
    have hrest : ∀ k2 ∈ rest.map Prod.fst, (ng.addChild k e).hasChild k2 = false := by
      intro k2 hk2
      have h1 : ng.hasChild k2 = false := hdisj k2 (by simp [hk2])
      have h2 : k2 ≠ k := fun hc => hnodup.1 (hc ▸ hk2)
      unfold HEntry.hasChild HEntry.getChild at h1
      unfold HEntry.hasChild HEntry.getChild HEntry.addChild
      rw [childrenOf_withChildren hg, alookup_append]
      rcases ha : alookup ng.childrenOf k2 with _ | v
      · simp [alookup, h2.symm]
      · rw [ha] at h1
        simp at h1
    have hg2 : (ng.addChild k e).isGroup = true := by
      unfold HEntry.addChild
      rw [withChildren_isGroup]
      exact hg
    rw [copyLinks, hk]
    simp only [Bool.false_eq_true, if_false]
    rw [ih (ng.addChild k e) hg2 hrest hnodup.2]
    unfold HEntry.addChild
    rw [childrenOf_withChildren hg]
    cases ng with
    | group a c => simp [HEntry.withChildren]
    | dataset p => simp [HEntry.isGroup] at hg

/-- C4: overwriting a node's own payload through the
rename/recreate/relink/delete sequence preserves every tagged data child
of the old group: the child is reachable under the new group with its
contents unchanged.  The hypotheses are those the live call sites satisfy:
the node matches the group's name and treepath, sibling names are unique,
the reserved temporary name is free, the old group's tagged children have
unique names and none is named like the payload dataset. -/
theorem c4_subtree_preserved
    (parent : HEntry) (relp : List String) (key : String) (n : RNode) (tp : String)
    (old : HEntry) (k : String) (e : HEntry)
    (hget : parent.getChild key = some old)
    (hmem : (k, e) ∈ taggedDataChildren old)
    (hname : n.name = key)
    (hpath : "/" ++ "/".intercalate (relp ++ [key]) = tp)
    (htmp : parent.hasChild ("_tmp_" ++ key) = false)
    (hpnodup : (parent.childrenOf.map Prod.fst).Nodup)
    (htnodup : ((taggedDataChildren old).map Prod.fst).Nodup)
    (hdata : ∀ k2 ∈ (taggedDataChildren old).map Prod.fst, k2 ≠ "data") :
    (overwrite_child parent relp key n tp).2 = none ∧
    ∃ ng, (overwrite_child parent relp key n tp).1.getChild key = some ng ∧
      ng.getChild k = some e := by
  have hpg : parent.isGroup = true := isGroup_of_getChild hget
  have hcs1 : alookup (arename parent.childrenOf key ("_tmp_" ++ key)) key = none :=
    alookup_arename_self hpnodup hget (tmp_ne key)
  have hcopy := copy_ok (taggedDataChildren old) (freshGroup n) rfl
    (by
      intro k2 hk2
      have hne := hdata k2 hk2
      simp [freshGroup, HEntry.hasChild, HEntry.getChild, HEntry.childrenOf, alookup,
        hne.symm])
    htnodup
  unfold overwrite_child
  rw [if_neg (by simp [hname]), if_neg (by simp [hpath])]
  rw [hget]
  simp only [htmp, Bool.false_eq_true, if_false, hname, hcs1, Option.isSome_none, hcopy]
  refine ⟨by trivial, ?_⟩
  refine ⟨(freshGroup n).withChildren ((freshGroup n).childrenOf ++ taggedDataChildren old),
    ?_, ?_⟩
  · unfold HEntry.getChild
    rw [childrenOf_withChildren hpg]
    rw [alookup_aerase_ne _ (fun hc => tmp_ne key hc.symm)]
    rw [alookup_append, hcs1]
    simp [alookup]
  · unfold HEntry.getChild
    rw [childrenOf_withChildren (by rfl)]
    have hkd : k ≠ "data" := hdata k (List.mem_map.mpr ⟨(k, e), hmem, rfl⟩)
    simp only [freshGroup, HEntry.childrenOf]
    rw [List.singleton_append, alookup]
    rw [if_neg (fun hc : "data" = k => hkd hc.symm)]
    exact alookup_nodup_of_mem htnodup hmem

/-- C4 applied at a concrete overwrite: replacing /root/A's payload keeps
its tagged child B reachable with unchanged contents. -/
theorem c4_witness :
    (overwrite_child parentA [] "A" (.node "A" "array" 5 []) "/A").2 = none ∧
    ∃ ng, (overwrite_child parentA [] "A" (.node "A" "array" 5 []) "/A").1.getChild "A" =
        some ng ∧
      ng.getChild "B" = some (.group [("emd_group_type", "array")] [("data", .dataset 9)]) :=
  c4_subtree_preserved parentA [] "A" (.node "A" "array" 5 []) "/A"
    (.group [("emd_group_type", "array")]
      [("data", .dataset 1), ("B", .group [("emd_group_type", "array")] [("data", .dataset 9)])])
    "B" (.group [("emd_group_type", "array")] [("data", .dataset 9)])
    rfl (List.Mem.head _) rfl rfl rfl (by decide) (by decide) (by decide)

/-! ### C1: rootedness restoration -/

/-- C1 counterexample: appending a rootless node into an existing file
that lacks the EMD header raises after the synthetic root was attached,
and the node is still rooted when the call returns — the claimed
unconditional detachment does not happen on this failure path. -/
theorem c1_counterexample :
    (write (some fileBad) (.rootless nodeX) "a" none .t).2.1 =
      some (Err.body BErr.notEmd) ∧
    (write (some fileBad) (.rootless nodeX) "a" none .t).2.2 = true := by
  refine ⟨rfl, rfl⟩

/-- C1 amended: the synthetic root wrapped around a rootless node is
detached on the normal-return path, so whenever the call returns without
raising, the node is rootless again; on failure paths raised after the
attachment the detachment line is never reached and the node stays
rooted. -/
theorem c1_restore (fs : Option HFile) (n : RNode) (mode : String)
    (emdpath : Option String) (tree : TreeFlag)
    (h : (write fs (.rootless n) mode emdpath tree).2.1 = none) :
    (write fs (.rootless n) mode emdpath tree).2.2 = false := by
  unfold write at h ⊢
  split at h
  next h1 => simp at h
  next h1 =>
    rw [if_neg h1]
    split at h
    next h2 => simp at h
    next h2 =>
      rw [if_neg h2]
      rcases hc : core fs (effectiveMode emdpath mode) (prep (.rootless n)).1
          (prep (.rootless n)).2.1 tree emdpath with ⟨fs1, e⟩
      cases e with
      | some e =>
        rw [hc] at h
        exact Option.noConfusion h
      | none => simp [writeFinish, prep]

/-- C1 amended, applied: a fresh write of a rootless node succeeds and
leaves the node rootless. -/
theorem c1_restore_witness :
    (write none (.rootless nodeX) "w" none .t).2.1 = none ∧
    (write none (.rootless nodeX) "w" none .t).2.2 = false :=
  ⟨rfl, c1_restore none nodeX "w" none .t rfl⟩

/-! ### C10: emdpath silently coerces the mode to append -/

theorem writeFinish_ne_exists (added rooted : Bool) (p : Option HFile × Option BErr) :
    (writeFinish added rooted p).2.1 ≠ some Err.existsAssert := by
  rcases p with ⟨fs1, _ | e⟩ <;> simp [writeFinish]

/-- C10: whenever an explicit target path is passed and the mode is not an
appendover synonym — including write mode "w", overwrite mode "o", and
even unrecognized strings — the mode is coerced to append before any
validation: the call behaves exactly like mode "a", never raises the
exists assert for an existing destination, and never runs the overwrite
deletion. -/
theorem c10_emdpath_coercion (mode : String) (hm : mode ∉ appendovermode) (p : String) :
    effectiveMode (some p) mode = "a" ∧
    (∀ (fs : Option HFile) (data : WData) (tree : TreeFlag),
      write fs data mode (some p) tree = write fs data "a" (some p) tree) ∧
    (∀ (fs : Option HFile) (data : WData) (tree : TreeFlag),
      (write fs data mode (some p) tree).2.1 ≠ some Err.existsAssert) := by
  have hc : effectiveMode (some p) mode = "a" := by
    simp [effectiveMode, hm]
  have ha : effectiveMode (some p) "a" = "a" := by
    simp [effectiveMode, appendovermode]
  have heqw : ∀ (fs : Option HFile) (data : WData) (tree : TreeFlag),
      write fs data mode (some p) tree = write fs data "a" (some p) tree := by
    intro fs data tree
    unfold write
    rw [hc, ha]
  refine ⟨hc, heqw, ?_⟩
  intro fs data tree
  rw [heqw fs data tree]
  unfold write
  rw [ha]
  rw [if_neg (by simp [allmodes, writemode, overwritemode, appendmode, appendovermode])]
  rw [if_neg (by simp [writemode])]
  exact writeFinish_ne_exists _ _ _

/-- C10 applied at mode "w" with an explicit target path. -/
theorem c10_emdpath_coercion_witness :
    effectiveMode (some "root/A") "w" = "a" ∧
    (∀ (fs : Option HFile) (data : WData) (tree : TreeFlag),
      write fs data "w" (some "root/A") tree = write fs data "a" (some "root/A") tree) ∧
    (∀ (fs : Option HFile) (data : WData) (tree : TreeFlag),
      (write fs data "w" (some "root/A") tree).2.1 ≠ some Err.existsAssert) :=
  c10_emdpath_coercion "w" (by decide) "root/A"

/-! ### C8: write-mode exclusivity and overwrite-mode replacement -/

/-- C8 counterexample: a call in write mode against an existing path but
with an explicit emdpath raises no exists error (here it raises the
not-an-EMD-file assert instead), and the same call in overwrite mode does
not delete the existing file — the file is returned untouched. -/
theorem c8_counterexample :
    (write (some fileBad) (dataA 2) "w" (some "root/A") .t).2.1 ≠
      some Err.existsAssert ∧
    (write (some fileBad) (dataA 2) "w" (some "root/A") .t).2.1 =
      some (Err.body BErr.notEmd) ∧
    (write (some fileBad) (dataA 2) "o" (some "root/A") .t).1 = some fileBad := by
  refine ⟨by decide, rfl, rfl⟩

/-- C8 amended: with no explicit target path, write mode against an
existing path always raises the exists assert before touching the file
(the file is returned unchanged), and overwrite mode against an existing
path behaves exactly like a fresh write to an empty destination — the
resulting file holds the newly written tree only, with no leftover groups
of the old file. -/
theorem c8_amended (f : HFile) (data : WData) (tree : TreeFlag) (mode : String) :
    (mode ∈ writemode →
      write (some f) data mode none tree = (some f, some .existsAssert, rootedInput data)) ∧
    (mode ∈ overwritemode →
      write (some f) data mode none tree = write none data "w" none tree) := by
  constructor
  · intro hm
    rcases (by simpa [writemode] using hm : mode = "w" ∨ mode = "write") with rfl | rfl
    · rfl
    · rfl
  · intro hm
    rcases (by simpa [overwritemode] using hm : mode = "o" ∨ mode = "overwrite") with rfl | rfl
    · rfl
    · rfl

/-- C8 amended, applied at an existing file in modes "w" and "o". -/
theorem c8_amended_witness :
    write (some (fileA 1)) (dataA 2) "w" none .t =
      (some (fileA 1), some .existsAssert, rootedInput (dataA 2)) ∧
    write (some (fileA 1)) (dataA 2) "o" none .t = write none (dataA 2) "w" none .t :=
  ⟨(c8_amended (fileA 1) (dataA 2) .t "w").1 (by decide),
   (c8_amended (fileA 1) (dataA 2) .t "o").2 (by decide)⟩

/-! ### C6: append preserves payloads, appendover replaces them -/

/-- C6 counterexample: an EMD file containing /root/A with payload 1
whose root group also holds a metadata bundle with one tagged metadata
group; calling the write entry point in appendover mode with the runtime
node /root/A carrying payload 2 (its root carrying a bundle) raises
KeyError inside the root-metadata reconciliation — which runs before the
overwrite — and leaves payload 1 on disk, not payload 2 as the claim
states for every such file. -/
theorem c6_counterexample :
    (write (some fileAmd) dataAmd "ao" none .t).2.1 = some (Err.body BErr.keyErr) ∧
    rootAPayload (write (some fileAmd) dataAmd "ao" none .t).1 = some 1 := by
  refine ⟨rfl, rfl⟩

/-- Overwriting /root/A through `_overwrite_single_node` replaces the
payload dataset: the call succeeds and the new group's `data` dataset
holds the node's payload. -/
theorem overwrite_child_payload (rg : HEntry) (aA : List (String × String))
    (cA : List (String × HEntry)) (P2 : Nat)
    (hgA : rg.getChild "A" = some (.group aA cA))
    (hnodup : (rg.childrenOf.map Prod.fst).Nodup)
    (htmp : rg.hasChild ("_tmp_" ++ "A") = false)
    (htnodup : ((taggedDataChildren (.group aA cA)).map Prod.fst).Nodup)
    (hdata : ∀ k ∈ (taggedDataChildren (.group aA cA)).map Prod.fst, k ≠ "data") :
    (overwrite_child rg [] "A" (.node "A" "array" P2 []) "/A").2 = none ∧
    ∃ gA2, (overwrite_child rg [] "A" (.node "A" "array" P2 []) "/A").1.getChild "A" =
        some gA2 ∧
      gA2.getChild "data" = some (.dataset P2) := by
  have hpg : rg.isGroup = true := isGroup_of_getChild hgA
  have hcs1 : alookup (arename rg.childrenOf "A" ("_tmp_" ++ "A")) "A" = none :=
    alookup_arename_self hnodup hgA (tmp_ne "A")
  have hcopy := copy_ok (taggedDataChildren (.group aA cA))
    (freshGroup (.node "A" "array" P2 [])) rfl
    (by
      intro k2 hk2
      have hne := hdata k2 hk2
      simp [freshGroup, HEntry.hasChild, HEntry.getChild, HEntry.childrenOf, alookup,
        hne.symm])
    htnodup
  unfold overwrite_child
  rw [if_neg (by simp [RNode.name]), if_neg (by decide)]
  rw [hgA]
  simp only [htmp, Bool.false_eq_true, if_false, RNode.name, hcs1, Option.isSome_none, hcopy]
  refine ⟨by trivial, ?_⟩
  refine ⟨(freshGroup (.node "A" "array" P2 [])).withChildren
    ((freshGroup (.node "A" "array" P2 [])).childrenOf ++
      taggedDataChildren (.group aA cA)), ?_, ?_⟩
  · unfold HEntry.getChild
    rw [childrenOf_withChildren hpg]
    rw [alookup_aerase_ne _ (fun hc => tmp_ne "A" hc.symm)]
    rw [alookup_append, hcs1]
    simp [alookup]
  · unfold HEntry.getChild
    rw [childrenOf_withChildren (by rfl)]
    simp only [freshGroup, HEntry.childrenOf]
    rw [List.singleton_append, alookup]
    simp [RNode.payload]

/-- C6 amended: for every EMD file containing a tagged root group named
root with a child group A holding payload P1, writing the runtime node
/root/A with payload P2 and a metadata-free runtime root — so the
root-metadata reconciliation that runs first cannot abort the call — in
append mode returns the file entirely unchanged, /root/A keeping P1, and
in appendover mode succeeds with /root/A holding P2 afterward.  The side
conditions are ones real HDF5 files satisfy: unique sibling names under
the root group, a free temporary name, and uniquely named tagged children
of the old group none of which is named like the payload dataset. -/
theorem c6_amended (f : HFile) (rg : HEntry) (aA : List (String × String))
    (cA : List (String × HEntry)) (P1 P2 : Nat)
    (hemd : f.isEMD = true)
    (hroot : alookup f.tops "root" = some rg)
    (hrattr : alookup rg.attrsOf "emd_group_type" = some "root")
    (hgA : rg.getChild "A" = some (.group aA cA))
    (hP1 : alookup cA "data" = some (.dataset P1))
    (hnodup : (rg.childrenOf.map Prod.fst).Nodup)
    (htmp : rg.hasChild ("_tmp_" ++ "A") = false)
    (htnodup : ((taggedDataChildren (.group aA cA)).map Prod.fst).Nodup)
    (hdata : ∀ k ∈ (taggedDataChildren (.group aA cA)).map Prod.fst, k ≠ "data") :
    rootAPayload (some f) = some P1 ∧
    write (some f) (dataA P2) "a" none .t = (some f, none, true) ∧
    (write (some f) (dataA P2) "ao" none .t).2.1 = none ∧
    rootAPayload (write (some f) (dataA P2) "ao" none .t).1 = some P2 := by
  obtain ⟨em, tops⟩ := f
  have hem : em = true := hemd
  subst hem
  have hroot' : alookup tops "root" = some rg := hroot
  have hocp := overwrite_child_payload rg aA cA P2 hgA hnodup htmp htnodup hdata
  obtain ⟨he2, gA2, hg1, hg2⟩ := hocp
  have hrgs : "root" ∈ rootGroupNames ⟨true, tops⟩ := by
    unfold rootGroupNames
    apply List.mem_map.mpr
    refine ⟨("root", rg), List.mem_filter.mpr ⟨alookup_eq_some_mem hroot', ?_⟩, rfl⟩
    simp [hrattr]
  have hpay : rootAPayload (some (⟨true, tops⟩ : HFile)) = some P1 := by
    have hgd : (HEntry.group aA cA).getChild "data" = some (.dataset P1) := hP1
    simp only [rootAPayload, hroot', hgA, hgd]
  have hval : validate_treepath rg "/A" = some (["A"], true) := by
    have hseg : (splitSlash "/A").erase "" = ["A"] := rfl
    unfold validate_treepath
    rw [hseg]
    simp only [validate_go, hgA]
    rfl
  have hwa : write (some ⟨true, tops⟩) (dataA P2) "a" none .t =
      writeFinish false true (diffmergeA ⟨true, tops⟩ ⟨"root", [], [.node "A" "array" P2 []]⟩
        (some (.node "A" "array" P2 [], "/A")) .t false) := by
    show writeFinish false true
        (if "root" ∈ rootGroupNames ⟨true, tops⟩ then
          diffmergeA ⟨true, tops⟩ ⟨"root", [], [.node "A" "array" P2 []]⟩
            (some (.node "A" "array" P2 [], "/A")) TreeFlag.t false
        else
          ((some ⟨true, (write_from_root tops ⟨"root", [], [.node "A" "array" P2 []]⟩
              (some (.node "A" "array" P2 [], "/A")) TreeFlag.t).1⟩ : Option HFile),
            (write_from_root tops ⟨"root", [], [.node "A" "array" P2 []]⟩
              (some (.node "A" "array" P2 [], "/A")) TreeFlag.t).2)) = _
    rw [if_pos hrgs]
  have hwo : write (some ⟨true, tops⟩) (dataA P2) "ao" none .t =
      writeFinish false true (diffmergeA ⟨true, tops⟩ ⟨"root", [], [.node "A" "array" P2 []]⟩
        (some (.node "A" "array" P2 [], "/A")) .t true) := by
    show writeFinish false true
        (if "root" ∈ rootGroupNames ⟨true, tops⟩ then
          diffmergeA ⟨true, tops⟩ ⟨"root", [], [.node "A" "array" P2 []]⟩
            (some (.node "A" "array" P2 [], "/A")) TreeFlag.t true
        else
          ((some ⟨true, (write_from_root tops ⟨"root", [], [.node "A" "array" P2 []]⟩
              (some (.node "A" "array" P2 [], "/A")) TreeFlag.t).1⟩ : Option HFile),
            (write_from_root tops ⟨"root", [], [.node "A" "array" P2 []]⟩
              (some (.node "A" "array" P2 [], "/A")) TreeFlag.t).2)) = _
    rw [if_pos hrgs]
  have hdaA : diffmergeA ⟨true, tops⟩ ⟨"root", [], [.node "A" "array" P2 []]⟩
      (some (.node "A" "array" P2 [], "/A")) .t false = (some ⟨true, tops⟩, none) := by
    have hmodA : modifyAt rg ["A"]
        (fun g => append_branch g ["A"] "/A" (RNode.node "A" "array" P2 []).children false) =
        (rg, none) := by
      simp only [modifyAt, hgA, RNode.children, append_branch, appendLoop]
      rw [setChild_self hgA]
    have hmeta : append_root_metadata rg ⟨"root", [], [RNode.node "A" "array" P2 []]⟩ false =
        (rg, none) := rfl
    simp only [diffmergeA, hroot', hmeta, hval, hmodA]
    rw [aset_self hroot']
    simp
  have hdaO : diffmergeA ⟨true, tops⟩ ⟨"root", [], [.node "A" "array" P2 []]⟩
      (some (.node "A" "array" P2 [], "/A")) .t true =
      (some ⟨true, aset tops "root"
        (overwrite_child rg [] "A" (.node "A" "array" P2 []) "/A").1⟩, none) := by
    have hovAt : overwriteAt rg "root" ["A"] (.node "A" "array" P2 []) "/A" =
        overwrite_child rg [] "A" (.node "A" "array" P2 []) "/A" := rfl
    have hmodO : modifyAt (overwrite_child rg [] "A" (.node "A" "array" P2 []) "/A").1 ["A"]
        (fun g => append_branch g ["A"] "/A" (RNode.node "A" "array" P2 []).children true) =
        ((overwrite_child rg [] "A" (.node "A" "array" P2 []) "/A").1, none) := by
      simp only [modifyAt, hg1, RNode.children, append_branch, appendLoop]
      rw [setChild_self hg1]
    have hmetaO : append_root_metadata rg ⟨"root", [], [RNode.node "A" "array" P2 []]⟩ true =
        (rg, none) := rfl
    simp only [diffmergeA, hroot', hmetaO, hval, hovAt, he2, hmodO]
    simp
  refine ⟨hpay, ?_, ?_, ?_⟩
  · rw [hwa, hdaA]
    rfl
  · rw [hwo, hdaO]
    rfl
  · rw [hwo, hdaO]
    have halk2 : alookup (aset tops "root"
        (overwrite_child rg [] "A" (.node "A" "array" P2 []) "/A").1) "root" =
        some (overwrite_child rg [] "A" (.node "A" "array" P2 []) "/A").1 :=
      alookup_aset_eq hroot'
    simp only [writeFinish, rootAPayload, halk2, hg1, hg2]

/-- C6 amended, applied at the minimal concrete file holding /root/A. -/
theorem c6_amended_witness :
    rootAPayload (some (fileA 1)) = some 1 ∧
    write (some (fileA 1)) (dataA 2) "a" none .t = (some (fileA 1), none, true) ∧
    (write (some (fileA 1)) (dataA 2) "ao" none .t).2.1 = none ∧
    rootAPayload (write (some (fileA 1)) (dataA 2) "ao" none .t).1 = some 2 :=
  c6_amended (fileA 1)
    (.group [("emd_group_type", "root")]
      [("A", .group [("emd_group_type", "array")] [("data", .dataset 1)])])
    [("emd_group_type", "array")] [("data", .dataset 1)] 1 2
    rfl rfl rfl rfl rfl (by decide) rfl (by decide) (by decide)

/-! ### C7: append mode is idempotent on whole trees -/

theorem getChild_none_of_hasChild_false {g : HEntry} {k : String}
    (h : g.hasChild k = false) : g.getChild k = none := by
  unfold HEntry.hasChild at h
  cases hg : g.getChild k with
  | none => rfl
  | some v => rw [hg] at h; simp at h

theorem WT_attrs (cs : List RNode) : ∀ g : HEntry,
    (write_tree g cs).1.attrsOf = g.attrsOf := by
  induction cs with
  | nil => intro g; rfl
  | cons c rest ih =>
    intro g
    cases hc : g.hasChild c.name with
    | true => simp [write_tree, hc]
    | false =>
      rcases he : (write_sub c).2 with _ | e
      · simp only [write_tree, hc, Bool.false_eq_true, if_false, he]
        rw [ih]
        unfold HEntry.addChild
        rw [withChildren_attrsOf]
      · simp only [write_tree, hc, Bool.false_eq_true, if_false, he]
        unfold HEntry.addChild
        rw [withChildren_attrsOf]

theorem WT_isGroup (cs : List RNode) : ∀ g : HEntry,
    (write_tree g cs).1.isGroup = g.isGroup := by
  induction cs with
  | nil => intro g; rfl
  | cons c rest ih =>
    intro g
    cases hc : g.hasChild c.name with
    | true => simp [write_tree, hc]
    | false =>
      rcases he : (write_sub c).2 with _ | e
      · simp only [write_tree, hc, Bool.false_eq_true, if_false, he]
        rw [ih]
        unfold HEntry.addChild
        rw [withChildren_isGroup]
      · simp only [write_tree, hc, Bool.false_eq_true, if_false, he]
        unfold HEntry.addChild
        rw [withChildren_isGroup]

theorem WT_decomp (cs : List RNode) : ∀ g : HEntry, g.isGroup = true →
    ∃ tail, (write_tree g cs).1.childrenOf = g.childrenOf ++ tail := by
  induction cs with
  | nil => intro g _; exact ⟨[], by simp [write_tree]⟩
  | cons c rest ih =>
    intro g hg
    cases hc : g.hasChild c.name with
    | true => exact ⟨[], by simp [write_tree, hc]⟩
    | false =>
      have hg1 : (g.addChild c.name (write_sub c).1).isGroup = true := by
        unfold HEntry.addChild
        rw [withChildren_isGroup]
        exact hg
      have hch : (g.addChild c.name (write_sub c).1).childrenOf =
          g.childrenOf ++ [(c.name, (write_sub c).1)] := by
        unfold HEntry.addChild
        rw [childrenOf_withChildren hg]
      rcases he : (write_sub c).2 with _ | e
      · obtain ⟨tail, htail⟩ := ih (g.addChild c.name (write_sub c).1) hg1
        refine ⟨[(c.name, (write_sub c).1)] ++ tail, ?_⟩
        simp only [write_tree, hc, Bool.false_eq_true, if_false, he]
        rw [htail, hch]
        simp
      · refine ⟨[(c.name, (write_sub c).1)], ?_⟩
        simp only [write_tree, hc, Bool.false_eq_true, if_false, he]
        rw [hch]

theorem WT_mem (cs : List RNode) : ∀ g : HEntry, g.isGroup = true →
    (write_tree g cs).2 = none →
    ∀ c ∈ cs, (write_sub c).2 = none ∧
      (write_tree g cs).1.getChild c.name = some (write_sub c).1 := by
  induction cs with
  | nil => intro g _ _ c hc; simp at hc
  | cons c0 rest ih =>
    intro g hg hsucc c hc
    cases hch : g.hasChild c0.name with
    | true =>
      rw [show (write_tree g (c0 :: rest)).2 = some .conflict from by
        simp [write_tree, hch]] at hsucc
      exact Option.noConfusion hsucc
    | false =>
      rcases he : (write_sub c0).2 with _ | e
      · have hstep : write_tree g (c0 :: rest) =
            write_tree (g.addChild c0.name (write_sub c0).1) rest := by
          simp only [write_tree, hch, Bool.false_eq_true, if_false, he]
        have hg1 : (g.addChild c0.name (write_sub c0).1).isGroup = true := by
          unfold HEntry.addChild
          rw [withChildren_isGroup]
          exact hg
        rw [hstep] at hsucc ⊢
        rcases List.mem_cons.mp hc with heq | hcr
        · subst heq
          refine ⟨he, ?_⟩
          obtain ⟨tail, htail⟩ := WT_decomp rest (g.addChild c.name (write_sub c).1) hg1
          have hch2 : (g.addChild c.name (write_sub c).1).childrenOf =
              g.childrenOf ++ [(c.name, (write_sub c).1)] := by
            unfold HEntry.addChild
            rw [childrenOf_withChildren hg]
          have ha : alookup g.childrenOf c.name = none := by
            have h0 := getChild_none_of_hasChild_false hch
            unfold HEntry.getChild at h0
            exact h0
          unfold HEntry.getChild
          rw [htail, hch2, List.append_assoc, alookup_append, ha]
          simp [alookup_append, alookup]
        · exact ih (g.addChild c0.name (write_sub c0).1) hg1 hsucc c hcr
      · rw [show (write_tree g (c0 :: rest)).2 = some e from by
          simp [write_tree, hch, he]] at hsucc
        exact Option.noConfusion hsucc

theorem TK_mem {g : HEntry} {k : String} {e : HEntry} (h : g.getChild k = some e)
    (ht : (alookup e.attrsOf "emd_group_type").isSome = true) : k ∈ taggedKeys g := by
  unfold taggedKeys
  apply List.mem_map.mpr
  refine ⟨(k, e), List.mem_filter.mpr ⟨?_, ht⟩, rfl⟩
  unfold HEntry.getChild at h
  exact alookup_eq_some_mem h

theorem WS_attrs (c : RNode) : (write_sub c).1.attrsOf = [("emd_group_type", c.tag)] := by
  cases c with
  | node nm t p cs =>
    show (write_tree (freshGroup (.node nm t p cs)) cs).1.attrsOf = _
    rw [WT_attrs]
    rfl

theorem WS_tagged (c : RNode) :
    (alookup (write_sub c).1.attrsOf "emd_group_type").isSome = true := by
  rw [WS_attrs]
  simp [alookup]

theorem appendLoop_fix : ∀ (N : Nat) (cs : List RNode), sizeOf cs ≤ N →
    ∀ g : HEntry, g.isGroup = true → (write_tree g cs).2 = none →
    ∀ gk : List String, (∀ c ∈ cs, c.name ∈ gk) →
    ∀ (relp : List String) (tp : String),
      appendLoop (write_tree g cs).1 relp tp gk false cs = ((write_tree g cs).1, none) := by
  intro N
  induction N with
  | zero =>
    intro cs hsz
    exfalso
    cases cs with
    | nil => simp at hsz
    | cons c rest => simp at hsz
  | succ N ihN =>
    intro cs hsz g hg hsucc gk hgk relp tp
    cases cs with
    | nil => rfl
    | cons c rest =>
      obtain ⟨nm, t, p, cs0⟩ := c
      have hsz2 : sizeOf cs0 ≤ N ∧ sizeOf rest ≤ N := by
        simp only [List.cons.sizeOf_spec, RNode.node.sizeOf_spec] at hsz
        omega
      cases hch : g.hasChild nm with
      | true =>
        rw [show (write_tree g (RNode.node nm t p cs0 :: rest)).2 = some .conflict from by
          simp [write_tree, RNode.name, hch]] at hsucc
        exact Option.noConfusion hsucc
      | false =>
        rcases he : (write_tree (freshGroup (RNode.node nm t p cs0)) cs0).2 with _ | e
        · have hsucc0 := hsucc
          have hnext := WT_mem (RNode.node nm t p cs0 :: rest) g hg hsucc0
            (RNode.node nm t p cs0) (List.mem_cons_self _ _)
          have hstep : write_tree g (RNode.node nm t p cs0 :: rest) =
              write_tree (g.addChild nm (write_tree (freshGroup (RNode.node nm t p cs0)) cs0).1)
                rest := by
            simp only [write_tree, RNode.name, hch, Bool.false_eq_true, if_false, write_sub, he]
          have hg1 : (g.addChild nm
              (write_tree (freshGroup (RNode.node nm t p cs0)) cs0).1).isGroup = true := by
            unfold HEntry.addChild
            rw [withChildren_isGroup]
            exact hg
          rw [hstep] at hsucc ⊢
          rw [hstep] at hnext
          simp only [RNode.name, write_sub] at hnext
          have htag : ∀ c2 ∈ cs0,
              c2.name ∈ taggedKeys (write_tree (freshGroup (RNode.node nm t p cs0)) cs0).1 := by
            intro c2 hc2
            have h2 := WT_mem cs0 (freshGroup (RNode.node nm t p cs0)) rfl he c2 hc2
            exact TK_mem h2.2 (WS_tagged c2)
          have hinner := ihN cs0 hsz2.1 (freshGroup (RNode.node nm t p cs0)) rfl he
            (taggedKeys (write_tree (freshGroup (RNode.node nm t p cs0)) cs0).1) htag
            (relp ++ [nm]) (childTp tp (RNode.node nm t p cs0))
          have hmem : nm ∈ gk := hgk (RNode.node nm t p cs0) (List.mem_cons_self _ _)
          have hchild : appendChild
              (write_tree (g.addChild nm
                (write_tree (freshGroup (RNode.node nm t p cs0)) cs0).1) rest).1
              relp tp gk false (RNode.node nm t p cs0) =
              ((write_tree (g.addChild nm
                (write_tree (freshGroup (RNode.node nm t p cs0)) cs0).1) rest).1,
                none) := by
            simp only [appendChild, RNode.name]
            rw [if_neg (not_not_intro hmem)]
            simp only [Bool.false_eq_true, if_false]
            rw [hnext.2]
            simp only [write_sub] at hinner ⊢
            rw [hinner]
            rw [setChild_self hnext.2]
          have htail := ihN rest hsz2.2
            (g.addChild nm (write_tree (freshGroup (RNode.node nm t p cs0)) cs0).1)
            hg1 hsucc gk (fun c2 hc2 => hgk c2 (List.mem_cons_of_mem _ hc2)) relp tp
          simp only [appendLoop, hchild]
          exact htail
        · rw [show (write_tree g (RNode.node nm t p cs0 :: rest)).2 = some e from by
            simp [write_tree, RNode.name, hch, write_sub, he]] at hsucc
          exact Option.noConfusion hsucc

theorem secondAppend (r : RRoot) (rg1 : HEntry)
    (hwt : write_tree (rootFreshGroup r) r.children = (rg1, none)) :
    (write (some ⟨true, [(r.name, rg1)]⟩) (.root r) "a" none .t).1 =
      some ⟨true, [(r.name, rg1)]⟩ ∧
    (r.metadata = [] →
      write (some ⟨true, [(r.name, rg1)]⟩) (.root r) "a" none .t =
        (some ⟨true, [(r.name, rg1)]⟩, none, true)) := by
  have h1 : (write_tree (rootFreshGroup r) r.children).1 = rg1 := by rw [hwt]
  have h2 : (write_tree (rootFreshGroup r) r.children).2 = none := by rw [hwt]
  have hattr : rg1.attrsOf = [("emd_group_type", "root")] := by
    have ha := WT_attrs r.children (rootFreshGroup r)
    rw [h1] at ha
    exact ha
  have halk : alookup [(r.name, rg1)] r.name = some rg1 := by simp [alookup]
  have hrgs : r.name ∈ rootGroupNames ⟨true, [(r.name, rg1)]⟩ := by
    simp [rootGroupNames, hattr, alookup]
  have hw : write (some ⟨true, [(r.name, rg1)]⟩) (.root r) "a" none .t =
      writeFinish false true (diffmergeA ⟨true, [(r.name, rg1)]⟩ r none .t false) := by
    show writeFinish false true
        (if r.name ∈ rootGroupNames ⟨true, [(r.name, rg1)]⟩ then
          diffmergeA ⟨true, [(r.name, rg1)]⟩ r none TreeFlag.t false
        else
          ((some ⟨true, (write_from_root [(r.name, rg1)] r none TreeFlag.t).1⟩ : Option HFile),
            (write_from_root [(r.name, rg1)] r none TreeFlag.t).2)) = _
    rw [if_pos hrgs]
  cases hmd : r.metadata with
  | nil =>
    have hmeta : append_root_metadata rg1 r false = (rg1, none) := by
      unfold append_root_metadata
      rw [hmd]
      simp
    have htag : ∀ c ∈ r.children, c.name ∈ taggedKeys rg1 := by
      intro c hc
      have hm := WT_mem r.children (rootFreshGroup r) rfl h2 c hc
      rw [h1] at hm
      exact TK_mem hm.2 (WS_tagged c)
    have hab : append_branch rg1 [] "" r.children false = (rg1, none) := by
      have hfix := appendLoop_fix (sizeOf r.children) r.children (Nat.le_refl _)
        (rootFreshGroup r) rfl h2 (taggedKeys rg1) htag [] ""
      rw [h1] at hfix
      exact hfix
    have hda : diffmergeA ⟨true, [(r.name, rg1)]⟩ r none .t false =
        (some ⟨true, [(r.name, rg1)]⟩, none) := by
      unfold diffmergeA
      simp only [halk, hmeta, hab]
      rw [aset_self halk]
      simp
    rw [hw, hda]
    exact ⟨rfl, fun _ => rfl⟩
  | cons kv mrest =>
    obtain ⟨k0, v0⟩ := kv
    have hche : rg1.getChild "metadatabundle" =
        some (.group [] (((k0, v0) :: mrest).map (fun kv => (kv.1, mdGroup kv.2)))) := by
      obtain ⟨tail, htail⟩ := WT_decomp r.children (rootFreshGroup r) rfl
      rw [h1] at htail
      unfold HEntry.getChild
      rw [htail]
      simp [rootFreshGroup, hmd, alookup_append, alookup, HEntry.childrenOf]
    have hscan : append_root_metadata rg1 r false = (rg1, some .keyErr) := by
      unfold append_root_metadata
      rw [hmd, hche]
      simp [mdScan, mdGroup, alookup, HEntry.childrenOf, HEntry.attrsOf]
    have hda : diffmergeA ⟨true, [(r.name, rg1)]⟩ r none .t false =
        (some ⟨true, [(r.name, rg1)]⟩, some .keyErr) := by
      unfold diffmergeA
      simp only [halk, hscan]
      rw [aset_self halk]
    rw [hw, hda]
    refine ⟨rfl, fun hcontra => ?_⟩
    exact List.noConfusion hcontra

/-- C7: writing a rooted tree to a fresh file and then writing the same
tree again in append mode yields exactly the file produced by the first
write — the second call leaves the file unchanged (and succeeds outright
whenever the root carries no metadata bundles; when it does, the
reconciliation stops in the metadata scan before modifying anything). -/
theorem c7_append_idempotent (r : RRoot) (f1 : HFile)
    (h : write none (.root r) "w" none .t = (some f1, none, true)) :
    (write (some f1) (.root r) "a" none .t).1 = some f1 ∧
    (r.metadata = [] →
      write (some f1) (.root r) "a" none .t = (some f1, none, true)) := by
  have hred : write none (.root r) "w" none .t =
      writeFinish false true
        (some ⟨true, [(r.name, (write_tree (rootFreshGroup r) r.children).1)]⟩,
          (write_tree (rootFreshGroup r) r.children).2) := rfl
  rw [hred] at h
  rcases hwt : write_tree (rootFreshGroup r) r.children with ⟨rg1, e⟩
  rw [hwt] at h
  cases e with
  | some e => exact absurd h (by simp [writeFinish])
  | none =>
    simp only [writeFinish] at h
    have hf1 : f1 = ⟨true, [(r.name, rg1)]⟩ := by
      have := congrArg Prod.fst h
      simp at this
      exact this.symm
    subst hf1
    exact secondAppend r rg1 hwt

/-- C7 applied: the two-node tree r/A/B written fresh and appended again. -/
theorem c7_append_idempotent_witness :
    ∃ f1 : HFile, write none (.root rootR) "w" none .t = (some f1, none, true) ∧
      (write (some f1) (.root rootR) "a" none .t).1 = some f1 ∧
      write (some f1) (.root rootR) "a" none .t = (some f1, none, true) := by
  refine ⟨⟨true, [("r", (write_tree (rootFreshGroup rootR) rootR.children).1)]⟩, rfl, ?_, ?_⟩
  · exact (c7_append_idempotent rootR _ rfl).1
  · exact (c7_append_idempotent rootR _ rfl).2 rfl

end Emdfile
